import Mathlib

/-!
Verification development for the peer-to-peer file sharing protocol of
`p2p_system` (`src/p2p_protocol.py`, class `P2PProtocol`).

The node's three stores are embedded as association lists mirroring Python
dicts (insertion order preserved, unique keys in every reachable state):
`peers` (the AddressBook, `self.peers`), `sharedFiles` (the FileDirectory,
`self.shared_files`) and `localFiles` (the LocalHoldings, `self.local_files`).
Timestamps and ports are modelled as `Int`; file bytes as `List Nat`; the
SHA-256 hex digest is kept abstract as a function parameter `sha`.
Network behaviour for the transfer client is supplied by explicit oracles
(`AttemptNet`), so that `_download_from_peer` and `request_file` become pure
functions of the node state and of what the network does.
-/

namespace P2P

/-- A peer's network address `(host, port)`, the key type of `self.peers`
and the elements of `file_info['peers']`. -/
abbrev Addr := String × Int

/-- One value of `self.shared_files` (FileDirectory):
`{'peers': [...], 'name': ...}` (lines 280, 294, 389 of the source). -/
structure FileRecord where
  peers : List Addr
  name : String
deriving DecidableEq, Repr

/-- One value of `self.local_files` (LocalHoldings):
`{'path': ..., 'name': ...}` (line 382 of the source). -/
structure LocalFile where
  path : String
  name : String
deriving DecidableEq, Repr

/-- First-match lookup in an association list; mirrors Python `d[k]` and
`k in d` (dict keys are unique, so the first match is the match). -/
def alookup {α β : Type} [DecidableEq α] (k : α) : List (α × β) → Option β
  | [] => none
  | e :: rest => if e.1 = k then some e.2 else alookup k rest

/-- Python `d[k] = v`: update in place if the key exists, append otherwise. -/
def aupsert {α β : Type} [DecidableEq α] (k : α) (v : β) : List (α × β) → List (α × β)
  | [] => [(k, v)]
  | e :: rest => if e.1 = k then (k, v) :: rest else e :: aupsert k v rest

/-- Python `del d[k]` (no-op on a missing key; callers guard membership). -/
def aerase {α β : Type} [DecidableEq α] (k : α) : List (α × β) → List (α × β)
  | [] => []
  | e :: rest => if e.1 = k then rest else e :: aerase k rest

/-- In-place mutation of the value stored under `k`, as in
`self.shared_files[file_hash]['peers'].append(...)`. -/
def aupdate {α β : Type} [DecidableEq α] (k : α) (f : β → β) : List (α × β) → List (α × β)
  | [] => []
  | e :: rest => if e.1 = k then (k, f e.2) :: rest else e :: aupdate k f rest

/-- Python `list.remove(x)`: delete the first occurrence. -/
def removeFirst {α : Type} [DecidableEq α] (a : α) : List α → List α
  | [] => []
  | x :: xs => if x = a then xs else x :: removeFirst a xs

/-- The mutable state of one `P2PProtocol` node (`__init__`, lines 118-130):
own discovery address, `self.peers` (address → last-seen time),
`self.shared_files` and `self.local_files`. -/
structure NodeState where
  host : String
  port : Int
  peers : List (Addr × Int)
  sharedFiles : List (String × FileRecord)
  localFiles : List (String × LocalFile)
deriving DecidableEq, Repr

/-- The FileDirectory update pattern shared verbatim by
`_handle_hello_response` (lines 279-282), `_handle_file_announcement`
(lines 293-296) and `share_file` (lines 388-391): create the record with an
empty peer list if the hash is unseen, then append the address if it is not
already in the record's peer list. The stored display name is NOT updated
when the hash already exists. -/
def recordRemote (sf : List (String × FileRecord)) (fileHash fileName : String)
    (addr : Addr) : List (String × FileRecord) :=
  let sf1 := match alookup fileHash sf with
    | none => sf ++ [(fileHash, ⟨[], fileName⟩)]
    | some _ => sf
  match alookup fileHash sf1 with
  | none => sf1
  | some r =>
    if addr ∈ r.peers then sf1
    else aupdate fileHash (fun r0 => ⟨r0.peers ++ [addr], r0.name⟩) sf1

/-- `_handle_hello_message` (lines 240-262). `msgHost`/`msgPort` are the
declared `host`/`port` fields carried by the message; the source handler
never reads them — both the self check and the stored peer key use the
datagram source address `addr`. The UDP `hello_response` reply is network
output and changes no state. -/
def handleHello (st : NodeState) (addr : Addr) (msgHost : String) (msgPort : Int)
    (now : Int) : NodeState :=
  if addr.1 = st.host ∧ addr.2 = st.port then st
  else { st with peers := aupsert addr now st.peers }

/-- `_handle_hello_response` (lines 264-283): self check on the source
address, refresh the peer, then fold the advertised `files` dict through the
FileDirectory update. `msgHost`/`msgPort` are the declared fields, unread by
the source handler. -/
def handleHelloResponse (st : NodeState) (addr : Addr) (msgHost : String)
    (msgPort : Int) (files : List (String × String)) (now : Int) : NodeState :=
  if addr.1 = st.host ∧ addr.2 = st.port then st
  else
    { st with
      peers := aupsert addr now st.peers
      sharedFiles := files.foldl (fun sf f => recordRemote sf f.1 f.2 addr) st.sharedFiles }

/-- `_handle_file_announcement` (lines 285-297): updates the FileDirectory
only; `self.peers` is never touched and there is no self-address check. -/
def handleFileAnnouncement (st : NodeState) (addr : Addr)
    (fileHash fileName : String) : NodeState :=
  { st with sharedFiles := recordRemote st.sharedFiles fileHash fileName addr }

/-- The per-record body of `_remove_peer` (lines 309-314):
`if peer in file_info['peers']: file_info['peers'].remove(peer)`, and a
record whose peer list becomes empty is marked for deletion (`none`).
A record not containing `peer` is left as is. -/
def dropPeerFromRecord (p : Addr) (r : FileRecord) : Option FileRecord :=
  if p ∈ r.peers then
    let ps := removeFirst p r.peers
    if ps = [] then none else some ⟨ps, r.name⟩
  else some r

/-- The FileDirectory cascade of `_remove_peer` (lines 307-318): strip `p`
from every record and delete the records that became peer-less. -/
def stripPeer (p : Addr) : List (String × FileRecord) → List (String × FileRecord)
  | [] => []
  | e :: rest =>
    match dropPeerFromRecord p e.2 with
    | none => stripPeer p rest
    | some r => (e.1, r) :: stripPeer p rest

/-- `_remove_peer` (lines 299-318): a no-op when the address is not a tracked
peer; otherwise delete the AddressBook entry and cascade into the
FileDirectory. -/
def removePeer (st : NodeState) (p : Addr) : NodeState :=
  if (alookup p st.peers).isSome then
    { st with peers := aerase p st.peers, sharedFiles := stripPeer p st.sharedFiles }
  else st

/-- `inactive_threshold` (line 322). -/
def inactiveThreshold : Int := 30

/-- The `peers_to_remove` list computed by `_cleanup_peers` (lines 324-328):
every tracked peer whose age strictly exceeds the threshold. -/
def expiredPeers (st : NodeState) (now : Int) : List Addr :=
  (st.peers.filter (fun e => inactiveThreshold < now - e.2)).map Prod.fst

/-- `_cleanup_peers` (lines 320-332): mark all expired peers first, then
remove each via `_remove_peer`. -/
def cleanupPeers (st : NodeState) (now : Int) : NodeState :=
  (expiredPeers st now).foldl removePeer st

/-- Helper for `basename`: keep the characters after the last separator. -/
def basenameChars : List Char → List Char → List Char
  | [], acc => acc.reverse
  | c :: cs, acc =>
    if c = '/' then basenameChars cs [] else basenameChars cs (c :: acc)

/-- `os.path.basename` for POSIX-style paths: the component after the last
`/` separator. -/
def basename (p : String) : String := ⟨basenameChars p.data []⟩

/-- `share_file` (lines 371-394). `fileBytes` are the bytes read from
`filePath`; `sha` is the SHA-256 hex digest. Registers the local holding,
then applies the FileDirectory update with the node's own address
(lines 388-391, the same pattern as `recordRemote`). The `_announce_file`
broadcast is network output only. Returns the new state and the hash. -/
def shareFile (sha : List Nat → String) (st : NodeState) (fileBytes : List Nat)
    (filePath : String) : NodeState × String :=
  let fileHash := sha fileBytes
  let fileName := basename filePath
  let st1 := { st with localFiles := aupsert fileHash ⟨filePath, fileName⟩ st.localFiles }
  ({ st1 with
      sharedFiles := recordRemote st1.sharedFiles fileHash fileName (st.host, st.port) },
   fileHash)

/-- One event seen by the body read loop of `_download_from_peer`
(lines 470-484): a `recv` returning data (an empty chunk is the peer closing
the connection) or a `socket.timeout`. The end of the event list also stands
for the peer closing the stream. -/
inductive StreamEvent where
  | chunk (data : List Nat)
  | timeout
deriving DecidableEq, Repr

/-- Network behaviour of one connection attempt inside `_download_from_peer`:
where the attempt fails, or the event stream it delivers after a good
`file_data` header. -/
inductive AttemptNet where
  | connectTimeout
  | connectRefused
  | headerTimeout
  | emptyResponse
  | badHeader (t : String)
  | ok (events : List StreamEvent)
deriving DecidableEq, Repr

/-- How an attempt's failure is classified by the `except` clauses of
`_download_from_peer` (lines 500-512): a `socket.timeout` escaping the body,
a `ConnectionRefusedError`, or any other exception. -/
inductive ErrKind where
  | sockTimeout
  | refused
  | other
deriving DecidableEq, Repr

/-- The error `_download_from_peer` finally raises. Every raise site wraps
the failure in a plain `Exception`, so `isSocketTimeout` — what
`request_file` later tests with `isinstance(e, socket.timeout)` (line 418) —
is `false` for every error the function can actually raise. -/
structure DlError where
  msg : String
  isSocketTimeout : Bool
deriving DecidableEq, Repr

/-- What one attempt leaves on disk at the save path: nothing touched, or a
leftover content (`none` content = the file was created then removed). -/
inductive DiskEffect where
  | untouched
  | leftover (content : Option (List Nat))
deriving DecidableEq, Repr

def applyEff (fl : Option (List Nat)) : DiskEffect → Option (List Nat)
  | .untouched => fl
  | .leftover c => c

/-- The body receive loop of `_download_from_peer` (lines 470-484): `tot`
mirrors `total_bytes`, `acc` the bytes written to the destination file. An
empty `recv` (or the end of the event list) ends the loop normally; a
`socket.timeout` with `total_bytes == 0` raises
`Exception("Timeout while receiving file data")` (modelled as `.error ()`),
while a timeout after some bytes is skipped and the loop continues. -/
def readLoop : List StreamEvent → Nat → List Nat → Except Unit (List Nat)
  | [], _, acc => .ok acc
  | .chunk d :: rest, tot, acc =>
    if d.isEmpty then .ok acc else readLoop rest (tot + d.length) (acc ++ d)
  | .timeout :: rest, tot, acc =>
    if tot = 0 then .error () else readLoop rest tot acc

/-- One iteration of the attempt loop of `_download_from_peer`
(lines 435-498), before the retry bookkeeping: connect, send request, read
header, resolve the save name (`save_as` or
`self.shared_files[file_hash]['name']`), stream the body, check emptiness,
recompute the hash and compare (a mismatch deletes the file, line 494).
Returns the raised error (kind and message) or the save path with the
received bytes, together with what the attempt leaves on disk. -/
def attemptStep (sha : List Nat → String) (fileHash : String)
    (nameRes : Option String) (saveDir : String) :
    AttemptNet → Except (ErrKind × String) (String × List Nat) × DiskEffect
  | .connectTimeout => (.error (.sockTimeout, "connect timed out"), .untouched)
  | .connectRefused => (.error (.refused, "connection refused"), .untouched)
  | .headerTimeout => (.error (.sockTimeout, "timeout receiving response"), .untouched)
  | .emptyResponse => (.error (.other, "No response received from peer"), .untouched)
  | .badHeader t => (.error (.other, "Unexpected response type: " ++ t), .untouched)
  | .ok events =>
    match nameRes with
    | none => (.error (.other, "KeyError"), .untouched)
    | some nm =>
      match readLoop events 0 [] with
      | .error _ =>
        (.error (.other, "Timeout while receiving file data"), .leftover (some []))
      | .ok bytes =>
        if bytes.isEmpty then
          (.error (.other, "No data received from peer"), .leftover (some []))
        else if sha bytes = fileHash then
          (.ok (saveDir ++ "/" ++ nm, bytes), .leftover (some bytes))
        else
          (.error (.other, "File hash verification failed"), .leftover none)

/-- How `_download_from_peer` ends: `raise last_error` or `return save_path`. -/
inductive DlOutcome where
  | raised (e : DlError)
  | returned (path : String)
deriving DecidableEq, Repr

/-- Result of `_download_from_peer`: the raised error or returned save path,
how many attempts were made (= sockets opened), how many 1-second retry
sleeps were performed, and what is left on disk at the save path. -/
structure DlResult where
  outcome : DlOutcome
  attemptsMade : Nat
  sleeps : Nat
  fileLeft : Option (List Nat)
deriving DecidableEq, Repr

/-- The attempt loop of `_download_from_peer` (lines 434-519). `fuel` is the
number of attempts still allowed (`max_retries + 1` at entry), `idx` the
number already made. A `socket.timeout` escaping the attempt (connect or
response header) sets `last_error`, sleeps 1 second and retries while
attempts remain; `ConnectionRefusedError` and every other exception break
out of the loop at once; after the loop the last error is raised. -/
def downloadGo (sha : List Nat → String) (fileHash : String)
    (nameRes : Option String) (saveDir : String) (net : Nat → AttemptNet) :
    Nat → Nat → Nat → Option (List Nat) → DlError → DlResult
  | 0, idx, sleeps, fl, lastErr => ⟨.raised lastErr, idx, sleeps, fl⟩
  | fuel + 1, idx, sleeps, fl, _ =>
    match attemptStep sha fileHash nameRes saveDir (net idx) with
    | (.ok (path, _), eff) => ⟨.returned path, idx + 1, sleeps, applyEff fl eff⟩
    | (.error (.sockTimeout, _), eff) =>
      if fuel = 0 then
        ⟨.raised ⟨"Connection to peer timed out", false⟩, idx + 1, sleeps, applyEff fl eff⟩
      else
        downloadGo sha fileHash nameRes saveDir net fuel (idx + 1) (sleeps + 1)
          (applyEff fl eff) ⟨"Connection to peer timed out", false⟩
    | (.error (.refused, _), eff) =>
      ⟨.raised ⟨"Connection to peer was refused", false⟩, idx + 1, sleeps, applyEff fl eff⟩
    | (.error (.other, m), eff) =>
      ⟨.raised ⟨m, false⟩, idx + 1, sleeps, applyEff fl eff⟩

/-- `max_retries` default of `_download_from_peer` (line 428). -/
def defaultMaxRetries : Nat := 2

/-- `_download_from_peer` (lines 428-519). `sf` is `self.shared_files`, read
only for the display name when `save_as` is `None` (line 466); `net` maps
the attempt index to what the network does on that attempt. -/
def downloadFromPeer (sha : List Nat → String) (sf : List (String × FileRecord))
    (fileHash : String) (saveAs : Option String) (saveDir : String)
    (net : Nat → AttemptNet) : DlResult :=
  let nameRes := match saveAs with
    | some n => some n
    | none => (alookup fileHash sf).map FileRecord.name
  downloadGo sha fileHash nameRes saveDir net (defaultMaxRetries + 1) 0 0 none ⟨"", false⟩

/-- Result of `request_file`: how the call ends, which peers it hands to
`_remove_peer` afterwards (empty on success — the early `return` skips the
cleanup), and how many transfer sockets were opened in total. -/
inductive ReqOutcome where
  | assertFailed
  | noPeers
  | downloaded (path : String)
  | failed (lastErr : DlError)
deriving DecidableEq, Repr

structure ReqResult where
  outcome : ReqOutcome
  evicted : List Addr
  connectionsOpened : Nat
deriving DecidableEq, Repr

/-- The per-peer loop of `request_file` (lines 407-424): try each candidate
in order; on success return at once (`failed_peers` is then never
processed); a failing peer is appended to `failed_peers` unless the raised
error is a `socket.timeout` instance (it never is, because
`_download_from_peer` wraps every timeout into a plain `Exception`). -/
def requestGo (sha : List Nat → String) (sf : List (String × FileRecord))
    (fileHash : String) (saveAs : Option String) (saveDir : String)
    (net : Addr → Nat → AttemptNet) :
    List Addr → Option DlError → List Addr → Nat → ReqResult
  | [], lastErr, failed, conns => ⟨.failed (lastErr.getD ⟨"", false⟩), failed, conns⟩
  | p :: rest, _, failed, conns =>
    let dl := downloadFromPeer sha sf fileHash saveAs saveDir (net p)
    match dl.outcome with
    | .returned path => ⟨.downloaded path, [], conns + dl.attemptsMade⟩
    | .raised e =>
      requestGo sha sf fileHash saveAs saveDir net rest (some e)
        (if e.isSocketTimeout then failed else failed ++ [p])
        (conns + dl.attemptsMade)

/-- `request_file` (lines 396-426), up to its final state change. Note that
the source never consults `self.local_files` here: there is no
local-holdings fast path, only the assertion that the hash is in
`self.shared_files` (line 399) and the candidate loop. -/
def requestFile (sha : List Nat → String) (st : NodeState) (fileHash : String)
    (saveAs : Option String) (saveDir : String)
    (net : Addr → Nat → AttemptNet) : ReqResult :=
  match alookup fileHash st.sharedFiles with
  | none => ⟨.assertFailed, [], 0⟩
  | some r =>
    if r.peers.isEmpty then ⟨.noPeers, [], 0⟩
    else requestGo sha st.sharedFiles fileHash saveAs saveDir net r.peers none [] 0

/-- The node state after `request_file` returns or raises: the collected
failed peers are removed via `_remove_peer` (lines 421-424) — which happens
only when every candidate failed, since success returns early. -/
def requestFileFinal (sha : List Nat → String) (st : NodeState) (fileHash : String)
    (saveAs : Option String) (saveDir : String)
    (net : Addr → Nat → AttemptNet) : NodeState :=
  (requestFile sha st fileHash saveAs saveDir net).evicted.foldl removePeer st

/-- Every operation of the source that mutates the node state.
`request_file`'s only state mutations go through `_remove_peer`
(covered by `.request`); `.drop` is a direct `_remove_peer` call. -/
inductive Op where
  | hello (addr : Addr) (msgHost : String) (msgPort : Int) (now : Int)
  | helloResponse (addr : Addr) (msgHost : String) (msgPort : Int)
      (files : List (String × String)) (now : Int)
  | announce (addr : Addr) (fileHash fileName : String)
  | goodbye (addr : Addr)
  | cleanup (now : Int)
  | share (fileBytes : List Nat) (filePath : String)
  | drop (addr : Addr)
  | request (fileHash : String) (saveAs : Option String) (saveDir : String)
      (net : Addr → Nat → AttemptNet)

/-- Dispatch of the state-mutating operations (`goodbye` in the discovery
loop calls `_remove_peer` on the sender, line 358). -/
def applyOp (sha : List Nat → String) (st : NodeState) : Op → NodeState
  | .hello a mh mp now => handleHello st a mh mp now
  | .helloResponse a mh mp files now => handleHelloResponse st a mh mp files now
  | .announce a h n => handleFileAnnouncement st a h n
  | .goodbye a => removePeer st a
  | .cleanup now => cleanupPeers st now
  | .share bytes path => (shareFile sha st bytes path).1
  | .drop a => removePeer st a
  | .request h sa sd net => requestFileFinal sha st h sa sd net

/-- The peer addresses an operation hands to `_remove_peer`. -/
def opEvicts (sha : List Nat → String) (st : NodeState) : Op → List Addr
  | .goodbye a => [a]
  | .drop a => [a]
  | .cleanup now => expiredPeers st now
  | .request h sa sd net => (requestFile sha st h sa sd net).evicted
  | _ => []

/-- Well-formedness every reachable node state has, because Python dict keys
are unique and peer addresses are appended to a record only when absent:
the two directory key lists and every record's peer list are duplicate-free. -/
def WFState (st : NodeState) : Prop :=
  (st.peers.map Prod.fst).Nodup ∧ (st.sharedFiles.map Prod.fst).Nodup ∧
    ∀ e ∈ st.sharedFiles, e.2.peers.Nodup

instance (st : NodeState) : Decidable (WFState st) := by
  unfold WFState; infer_instance

/-! ### Association-list lemmas -/

section AList

variable {α β : Type} [DecidableEq α]

theorem alookup_append_right (k : α) (sf l : List (α × β)) (h : alookup k sf = none) :
    alookup k (sf ++ l) = alookup k l := by
  induction sf with
  | nil => simp
  | cons e rest ih =>
    by_cases he : e.1 = k
    · rw [alookup, if_pos he] at h; exact absurd h (by simp)
    · rw [alookup, if_neg he] at h
      rw [List.cons_append, alookup, if_neg he]
      exact ih h

theorem alookup_append_left (k : α) (sf l : List (α × β)) {v : β}
    (h : alookup k sf = some v) : alookup k (sf ++ l) = some v := by
  induction sf with
  | nil => simp [alookup] at h
  | cons e rest ih =>
    by_cases he : e.1 = k
    · rw [alookup, if_pos he] at h
      rw [List.cons_append, alookup, if_pos he]; exact h
    · rw [alookup, if_neg he] at h
      rw [List.cons_append, alookup, if_neg he]; exact ih h

theorem alookup_aupsert_self (k : α) (v : β) (l : List (α × β)) :
    alookup k (aupsert k v l) = some v := by
  induction l with
  | nil => simp [aupsert, alookup]
  | cons e rest ih =>
    by_cases he : e.1 = k
    · rw [aupsert, if_pos he, alookup, if_pos rfl]
    · rw [aupsert, if_neg he, alookup, if_neg he]; exact ih

theorem alookup_aupsert_ne {k k' : α} (v : β) (l : List (α × β)) (h : k' ≠ k) :
    alookup k (aupsert k' v l) = alookup k l := by
  induction l with
  | nil => simp [aupsert, alookup, h]
  | cons e rest ih =>
    by_cases he : e.1 = k'
    · rw [aupsert, if_pos he, alookup, if_neg h, alookup, if_neg (he ▸ h)]
    · rw [aupsert, if_neg he, alookup, alookup]
      by_cases hek : e.1 = k
      · rw [if_pos hek, if_pos hek]
      · rw [if_neg hek, if_neg hek]; exact ih

theorem alookup_aerase_ne {k k' : α} (l : List (α × β)) (h : k' ≠ k) :
    alookup k (aerase k' l) = alookup k l := by
  induction l with
  | nil => simp [aerase]
  | cons e rest ih =>
    by_cases he : e.1 = k'
    · rw [aerase, if_pos he, alookup, if_neg (he ▸ h)]
    · rw [aerase, if_neg he, alookup, alookup]
      by_cases hek : e.1 = k
      · rw [if_pos hek, if_pos hek]
      · rw [if_neg hek, if_neg hek]; exact ih

theorem alookup_eq_none_iff (k : α) (l : List (α × β)) :
    alookup k l = none ↔ k ∉ l.map Prod.fst := by
  induction l with
  | nil => simp [alookup]
  | cons e rest ih =>
    by_cases he : e.1 = k
    · simp [alookup, he]
    · simp [alookup, he, ih, Ne.symm he]

theorem alookup_aerase_self (k : α) (l : List (α × β))
    (hnd : (l.map Prod.fst).Nodup) : alookup k (aerase k l) = none := by
  induction l with
  | nil => simp [aerase, alookup]
  | cons e rest ih =>
    simp only [List.map_cons, List.nodup_cons] at hnd
    by_cases he : e.1 = k
    · rw [aerase, if_pos he]
      rw [alookup_eq_none_iff]
      exact he ▸ hnd.1
    · rw [aerase, if_neg he, alookup, if_neg he]
      exact ih hnd.2

theorem alookup_aerase_none (k k' : α) (l : List (α × β)) (h : alookup k l = none) :
    alookup k (aerase k' l) = none := by
  induction l with
  | nil => simpa [aerase] using h
  | cons e rest ih =>
    by_cases hek : e.1 = k
    · rw [alookup, if_pos hek] at h; exact absurd h (by simp)
    · rw [alookup, if_neg hek] at h
      by_cases he : e.1 = k'
      · rw [aerase, if_pos he]; exact h
      · rw [aerase, if_neg he, alookup, if_neg hek]; exact ih h

theorem alookup_aupdate_self (k : α) (f : β → β) (l : List (α × β)) :
    alookup k (aupdate k f l) = (alookup k l).map f := by
  induction l with
  | nil => simp [aupdate, alookup]
  | cons e rest ih =>
    by_cases he : e.1 = k
    · rw [aupdate, if_pos he, alookup, if_pos rfl, alookup, if_pos he, Option.map_some']
    · rw [aupdate, if_neg he, alookup, if_neg he, alookup, if_neg he]; exact ih

theorem alookup_aupdate_ne {k k' : α} (f : β → β) (l : List (α × β)) (h : k' ≠ k) :
    alookup k (aupdate k' f l) = alookup k l := by
  induction l with
  | nil => simp [aupdate]
  | cons e rest ih =>
    by_cases he : e.1 = k'
    · rw [aupdate, if_pos he, alookup, if_neg h, alookup, if_neg (he ▸ h)]
    · rw [aupdate, if_neg he, alookup, alookup]
      by_cases hek : e.1 = k
      · rw [if_pos hek, if_pos hek]
      · rw [if_neg hek, if_neg hek]; exact ih

theorem map_fst_aerase_sublist (k : α) (l : List (α × β)) :
    ((aerase k l).map Prod.fst).Sublist (l.map Prod.fst) := by
  induction l with
  | nil => simp [aerase]
  | cons e rest ih =>
    by_cases he : e.1 = k
    · rw [aerase, if_pos he, List.map_cons]
      exact List.sublist_cons_self _ _
    · rw [aerase, if_neg he, List.map_cons, List.map_cons]
      exact ih.cons₂ _

theorem nodup_aerase (k : α) (l : List (α × β)) (hnd : (l.map Prod.fst).Nodup) :
    ((aerase k l).map Prod.fst).Nodup :=
  hnd.sublist (map_fst_aerase_sublist k l)

theorem map_fst_aupdate (k : α) (f : β → β) (l : List (α × β)) :
    (aupdate k f l).map Prod.fst = l.map Prod.fst := by
  induction l with
  | nil => simp [aupdate]
  | cons e rest ih =>
    by_cases he : e.1 = k
    · rw [aupdate, if_pos he]; simp [he]
    · rw [aupdate, if_neg he]; simp [ih]

theorem mem_aupsert {k : α} {v : β} {l : List (α × β)} {x : α × β}
    (hx : x ∈ aupsert k v l) : x ∈ l ∨ x.1 = k := by
  induction l with
  | nil =>
    simp only [aupsert, List.mem_singleton] at hx
    right; rw [hx]
  | cons e2 r2 ih2 =>
    by_cases he2 : e2.1 = k
    · rw [aupsert, if_pos he2] at hx
      rcases List.mem_cons.1 hx with h1 | h1
      · right; rw [h1]
      · left; exact List.mem_cons_of_mem _ h1
    · rw [aupsert, if_neg he2] at hx
      rcases List.mem_cons.1 hx with h1 | h1
      · left; rw [h1]; exact List.mem_cons_self _ _
      · rcases ih2 h1 with h2 | h2
        · left; exact List.mem_cons_of_mem _ h2
        · right; exact h2

theorem nodup_aupsert (k : α) (v : β) (l : List (α × β))
    (hnd : (l.map Prod.fst).Nodup) : ((aupsert k v l).map Prod.fst).Nodup := by
  induction l with
  | nil => simp [aupsert]
  | cons e rest ih =>
    simp only [List.map_cons, List.nodup_cons] at hnd
    by_cases he : e.1 = k
    · rw [aupsert, if_pos he]
      simp only [List.map_cons, List.nodup_cons]
      exact ⟨he ▸ hnd.1, hnd.2⟩
    · rw [aupsert, if_neg he]
      simp only [List.map_cons, List.nodup_cons]
      constructor
      · intro hmem
        rcases List.mem_map.1 hmem with ⟨x, hx, hfst⟩
        rcases mem_aupsert hx with h1 | h1
        · exact hnd.1 (hfst ▸ List.mem_map.2 ⟨x, h1, rfl⟩)
        · exact he (hfst ▸ h1)
      · exact ih hnd.2

theorem alookup_mem {k : α} {v : β} {l : List (α × β)} (h : alookup k l = some v) :
    (k, v) ∈ l := by
  induction l with
  | nil => simp [alookup] at h
  | cons e rest ih =>
    by_cases he : e.1 = k
    · rw [alookup, if_pos he] at h
      obtain ⟨a, b⟩ := e
      have ha : a = k := he
      have hb : b = v := Option.some.inj h
      rw [← ha, ← hb]
      exact List.mem_cons_self _ _
    · rw [alookup, if_neg he] at h
      exact List.mem_cons_of_mem _ (ih h)

end AList

/-! ### removeFirst lemmas -/

section RemoveFirst

variable {α : Type} [DecidableEq α]

theorem removeFirst_sublist (a : α) (l : List α) : (removeFirst a l).Sublist l := by
  induction l with
  | nil => simp [removeFirst]
  | cons x xs ih =>
    by_cases hx : x = a
    · rw [removeFirst, if_pos hx]; exact List.sublist_cons_self _ _
    · rw [removeFirst, if_neg hx]; exact ih.cons₂ _

theorem mem_removeFirst_of_ne {a b : α} {l : List α} (hne : b ≠ a) (hb : b ∈ l) :
    b ∈ removeFirst a l := by
  induction l with
  | nil => simp at hb
  | cons x xs ih =>
    by_cases hx : x = a
    · rw [removeFirst, if_pos hx]
      rcases List.mem_cons.1 hb with h | h
      · exact absurd (h.trans hx) hne
      · exact h
    · rw [removeFirst, if_neg hx]
      rcases List.mem_cons.1 hb with h | h
      · exact h ▸ List.mem_cons_self _ _
      · exact List.mem_cons_of_mem _ (ih h)

theorem mem_of_mem_removeFirst {a b : α} {l : List α} (h : b ∈ removeFirst a l) :
    b ∈ l := (removeFirst_sublist a l).mem h

theorem not_mem_removeFirst (a : α) (l : List α) (hnd : l.Nodup) :
    a ∉ removeFirst a l := by
  induction l with
  | nil => simp [removeFirst]
  | cons x xs ih =>
    rcases List.nodup_cons.1 hnd with ⟨hx, hxs⟩
    by_cases hxa : x = a
    · rw [removeFirst, if_pos hxa]
      exact hxa ▸ hx
    · rw [removeFirst, if_neg hxa]
      intro hmem
      rcases List.mem_cons.1 hmem with h | h
      · exact hxa h.symm
      · exact ih hxs h

theorem nodup_removeFirst (a : α) (l : List α) (hnd : l.Nodup) :
    (removeFirst a l).Nodup := hnd.sublist (removeFirst_sublist a l)

theorem removeFirst_eq_nil {a : α} {l : List α} (ha : a ∈ l)
    (h : removeFirst a l = []) : l = [a] := by
  cases l with
  | nil => simp at ha
  | cons x xs =>
    by_cases hx : x = a
    · rw [removeFirst, if_pos hx] at h
      rw [h, hx]
    · rw [removeFirst, if_neg hx] at h
      simp at h

end RemoveFirst

/-! ### dropPeerFromRecord and stripPeer lemmas -/

theorem dropPeerFromRecord_none_iff {p : Addr} {r : FileRecord} :
    dropPeerFromRecord p r = none ↔ p ∈ r.peers ∧ removeFirst p r.peers = [] := by
  unfold dropPeerFromRecord
  by_cases hp : p ∈ r.peers
  · rw [if_pos hp]
    by_cases hps : removeFirst p r.peers = []
    · simp [hps, hp]
    · simp [hps, hp]
  · simp [hp]

theorem dropPeerFromRecord_some_cases {p : Addr} {r r' : FileRecord}
    (h : dropPeerFromRecord p r = some r') :
    (p ∉ r.peers ∧ r' = r) ∨
      (p ∈ r.peers ∧ removeFirst p r.peers ≠ [] ∧
        r' = ⟨removeFirst p r.peers, r.name⟩) := by
  unfold dropPeerFromRecord at h
  by_cases hp : p ∈ r.peers
  · rw [if_pos hp] at h
    by_cases hps : removeFirst p r.peers = []
    · simp [hps] at h
    · rw [if_neg hps] at h
      exact Or.inr ⟨hp, hps, (Option.some.inj h).symm⟩
  · rw [if_neg hp] at h
    exact Or.inl ⟨hp, (Option.some.inj h).symm⟩

theorem dropPeerFromRecord_not_mem {p : Addr} {r r' : FileRecord}
    (hnd : r.peers.Nodup) (h : dropPeerFromRecord p r = some r') : p ∉ r'.peers := by
  rcases dropPeerFromRecord_some_cases h with ⟨hp, rfl⟩ | ⟨hp, hne, rfl⟩
  · exact hp
  · exact not_mem_removeFirst p r.peers hnd

theorem dropPeerFromRecord_subset {p : Addr} {r r' : FileRecord}
    (h : dropPeerFromRecord p r = some r') : r'.peers ⊆ r.peers := by
  rcases dropPeerFromRecord_some_cases h with ⟨hp, rfl⟩ | ⟨hp, hne, rfl⟩
  · exact fun _ hx => hx
  · exact fun _ hx => mem_of_mem_removeFirst hx

theorem dropPeerFromRecord_nodup {p : Addr} {r r' : FileRecord}
    (hnd : r.peers.Nodup) (h : dropPeerFromRecord p r = some r') : r'.peers.Nodup := by
  rcases dropPeerFromRecord_some_cases h with ⟨hp, rfl⟩ | ⟨hp, hne, rfl⟩
  · exact hnd
  · exact nodup_removeFirst p r.peers hnd

theorem stripPeer_cons_none {p : Addr} {e : String × FileRecord}
    {rest : List (String × FileRecord)} (h : dropPeerFromRecord p e.2 = none) :
    stripPeer p (e :: rest) = stripPeer p rest := by
  rw [stripPeer, h]

theorem stripPeer_cons_some {p : Addr} {e : String × FileRecord}
    {rest : List (String × FileRecord)} {r : FileRecord}
    (h : dropPeerFromRecord p e.2 = some r) :
    stripPeer p (e :: rest) = (e.1, r) :: stripPeer p rest := by
  rw [stripPeer, h]

theorem map_fst_stripPeer_sublist (p : Addr) (sf : List (String × FileRecord)) :
    ((stripPeer p sf).map Prod.fst).Sublist (sf.map Prod.fst) := by
  induction sf with
  | nil => simp [stripPeer]
  | cons e rest ih =>
    cases h : dropPeerFromRecord p e.2 with
    | none =>
      rw [stripPeer_cons_none h, List.map_cons]
      exact ih.trans (List.sublist_cons_self _ _)
    | some r =>
      rw [stripPeer_cons_some h, List.map_cons, List.map_cons]
      exact ih.cons₂ _

theorem mem_stripPeer {p : Addr} {sf : List (String × FileRecord)}
    {e' : String × FileRecord} (h : e' ∈ stripPeer p sf) :
    ∃ e ∈ sf, e'.1 = e.1 ∧ dropPeerFromRecord p e.2 = some e'.2 := by
  induction sf with
  | nil => simp [stripPeer] at h
  | cons e rest ih =>
    cases hd : dropPeerFromRecord p e.2 with
    | none =>
      rw [stripPeer_cons_none hd] at h
      rcases ih h with ⟨e0, he0, h1, h2⟩
      exact ⟨e0, List.mem_cons_of_mem _ he0, h1, h2⟩
    | some r =>
      rw [stripPeer_cons_some hd] at h
      rcases List.mem_cons.1 h with h1 | h1
      · exact ⟨e, List.mem_cons_self _ _, by rw [h1], by rw [h1]; exact hd⟩
      · rcases ih h1 with ⟨e0, he0, h2, h3⟩
        exact ⟨e0, List.mem_cons_of_mem _ he0, h2, h3⟩

theorem alookup_stripPeer_none {h : String} {p : Addr}
    {sf : List (String × FileRecord)} (hnone : alookup h sf = none) :
    alookup h (stripPeer p sf) = none := by
  induction sf with
  | nil => simp [stripPeer, alookup]
  | cons e rest ih =>
    by_cases he : e.1 = h
    · rw [alookup, if_pos he] at hnone; exact absurd hnone (by simp)
    · rw [alookup, if_neg he] at hnone
      cases hd : dropPeerFromRecord p e.2 with
      | none => rw [stripPeer_cons_none hd]; exact ih hnone
      | some r =>
        rw [stripPeer_cons_some hd, alookup, if_neg he]
        exact ih hnone

theorem alookup_stripPeer {h : String} (p : Addr) {sf : List (String × FileRecord)}
    (hnd : (sf.map Prod.fst).Nodup) :
    alookup h (stripPeer p sf) = (alookup h sf).bind (dropPeerFromRecord p) := by
  induction sf with
  | nil => simp [stripPeer, alookup]
  | cons e rest ih =>
    simp only [List.map_cons, List.nodup_cons] at hnd
    by_cases he : e.1 = h
    · rw [alookup, if_pos he, Option.some_bind]
      cases hd : dropPeerFromRecord p e.2 with
      | none =>
        rw [stripPeer_cons_none hd]
        apply alookup_stripPeer_none
        rw [alookup_eq_none_iff]
        exact he ▸ hnd.1
      | some r => rw [stripPeer_cons_some hd, alookup, if_pos he]
    · rw [alookup, if_neg he]
      cases hd : dropPeerFromRecord p e.2 with
      | none => rw [stripPeer_cons_none hd]; exact ih hnd.2
      | some r =>
        rw [stripPeer_cons_some hd, alookup, if_neg he]
        exact ih hnd.2

/-! ### removePeer lemmas -/

theorem removePeer_tracked {st : NodeState} {p : Addr}
    (h : (alookup p st.peers).isSome) :
    removePeer st p =
      { st with peers := aerase p st.peers, sharedFiles := stripPeer p st.sharedFiles } := by
  rw [removePeer, if_pos h]

theorem removePeer_untracked {st : NodeState} {p : Addr}
    (h : ¬(alookup p st.peers).isSome) : removePeer st p = st := by
  rw [removePeer, if_neg h]

theorem removePeer_host (st : NodeState) (p : Addr) :
    (removePeer st p).host = st.host := by
  by_cases h : (alookup p st.peers).isSome
  · rw [removePeer_tracked h]
  · rw [removePeer_untracked h]

theorem removePeer_port (st : NodeState) (p : Addr) :
    (removePeer st p).port = st.port := by
  by_cases h : (alookup p st.peers).isSome
  · rw [removePeer_tracked h]
  · rw [removePeer_untracked h]

theorem removePeer_localFiles (st : NodeState) (p : Addr) :
    (removePeer st p).localFiles = st.localFiles := by
  by_cases h : (alookup p st.peers).isSome
  · rw [removePeer_tracked h]
  · rw [removePeer_untracked h]

theorem alookup_removePeer_peers_ne {st : NodeState} {p q : Addr} (hq : q ≠ p) :
    alookup q (removePeer st p).peers = alookup q st.peers := by
  by_cases h : (alookup p st.peers).isSome
  · rw [removePeer_tracked h]
    exact alookup_aerase_ne st.peers (fun hpq => hq hpq.symm)
  · rw [removePeer_untracked h]

theorem alookup_removePeer_peers_none {st : NodeState} {p q : Addr}
    (h : alookup q st.peers = none) : alookup q (removePeer st p).peers = none := by
  by_cases ht : (alookup p st.peers).isSome
  · rw [removePeer_tracked ht]
    exact alookup_aerase_none q p st.peers h
  · rw [removePeer_untracked ht]; exact h

theorem alookup_removePeer_peers_self {st : NodeState} (p : Addr)
    (hnd : (st.peers.map Prod.fst).Nodup) :
    alookup p (removePeer st p).peers = none := by
  by_cases h : (alookup p st.peers).isSome
  · rw [removePeer_tracked h]
    exact alookup_aerase_self p st.peers hnd
  · rw [removePeer_untracked h]
    exact Option.not_isSome_iff_eq_none.1 h

theorem removePeer_WF {st : NodeState} (p : Addr) (hwf : WFState st) :
    WFState (removePeer st p) := by
  by_cases h : (alookup p st.peers).isSome
  · rw [removePeer_tracked h]
    refine ⟨nodup_aerase p st.peers hwf.1, hwf.2.1.sublist (map_fst_stripPeer_sublist p _), ?_⟩
    intro e he
    rcases mem_stripPeer he with ⟨e0, he0, _, hdrop⟩
    exact dropPeerFromRecord_nodup (hwf.2.2 e0 he0) hdrop
  · rw [removePeer_untracked h]; exact hwf

theorem removePeer_sharedFiles_none {st : NodeState} {p : Addr} {h : String}
    (hn : alookup h st.sharedFiles = none) :
    alookup h (removePeer st p).sharedFiles = none := by
  by_cases ht : (alookup p st.peers).isSome
  · rw [removePeer_tracked ht]
    exact alookup_stripPeer_none hn
  · rw [removePeer_untracked ht]; exact hn

/-! ### foldl removePeer lemmas -/

theorem foldl_removePeer_host (ps : List Addr) (st : NodeState) :
    (ps.foldl removePeer st).host = st.host := by
  induction ps generalizing st with
  | nil => rfl
  | cons p rest ih => rw [List.foldl_cons, ih, removePeer_host]

theorem foldl_removePeer_port (ps : List Addr) (st : NodeState) :
    (ps.foldl removePeer st).port = st.port := by
  induction ps generalizing st with
  | nil => rfl
  | cons p rest ih => rw [List.foldl_cons, ih, removePeer_port]

theorem foldl_removePeer_localFiles (ps : List Addr) (st : NodeState) :
    (ps.foldl removePeer st).localFiles = st.localFiles := by
  induction ps generalizing st with
  | nil => rfl
  | cons p rest ih => rw [List.foldl_cons, ih, removePeer_localFiles]

theorem foldl_removePeer_WF (ps : List Addr) {st : NodeState} (hwf : WFState st) :
    WFState (ps.foldl removePeer st) := by
  induction ps generalizing st with
  | nil => exact hwf
  | cons p rest ih => exact ih (removePeer_WF p hwf)

theorem foldl_removePeer_peers_none (ps : List Addr) {st : NodeState} {q : Addr}
    (h : alookup q st.peers = none) :
    alookup q (ps.foldl removePeer st).peers = none := by
  induction ps generalizing st with
  | nil => exact h
  | cons p rest ih => exact ih (alookup_removePeer_peers_none h)

theorem foldl_removePeer_sharedFiles_none (ps : List Addr) {st : NodeState}
    {h : String} (hn : alookup h st.sharedFiles = none) :
    alookup h (ps.foldl removePeer st).sharedFiles = none := by
  induction ps generalizing st with
  | nil => exact hn
  | cons p rest ih => exact ih (removePeer_sharedFiles_none hn)

theorem removePeer_peers_nodup {st : NodeState} (p : Addr)
    (hnd : (st.peers.map Prod.fst).Nodup) :
    ((removePeer st p).peers.map Prod.fst).Nodup := by
  by_cases h : (alookup p st.peers).isSome
  · rw [removePeer_tracked h]
    exact nodup_aerase p st.peers hnd
  · rw [removePeer_untracked h]; exact hnd

theorem foldl_removePeer_peers_mem {ps : List Addr} {st : NodeState} {q : Addr}
    (hnd : (st.peers.map Prod.fst).Nodup) (hq : q ∈ ps) :
    alookup q (ps.foldl removePeer st).peers = none := by
  induction ps generalizing st with
  | nil => simp at hq
  | cons p rest ih =>
    rw [List.foldl_cons]
    rcases List.mem_cons.1 hq with hqp | hqr
    · subst hqp
      exact foldl_removePeer_peers_none rest (alookup_removePeer_peers_self q hnd)
    · exact ih (removePeer_peers_nodup p hnd) hqr

theorem removePeer_sharedFiles_nodup {st : NodeState} (p : Addr)
    (hnd : (st.sharedFiles.map Prod.fst).Nodup) :
    ((removePeer st p).sharedFiles.map Prod.fst).Nodup := by
  by_cases h : (alookup p st.peers).isSome
  · rw [removePeer_tracked h]
    exact hnd.sublist (map_fst_stripPeer_sublist p _)
  · rw [removePeer_untracked h]; exact hnd

/-- Single-step characterization: when `p` is tracked, what `h` maps to after
`_remove_peer` is the old record filtered through `dropPeerFromRecord`. -/
theorem alookup_removePeer_sharedFiles {st : NodeState} {p : Addr} {h : String}
    (hnd : (st.sharedFiles.map Prod.fst).Nodup) :
    alookup h (removePeer st p).sharedFiles =
      if (alookup p st.peers).isSome then
        (alookup h st.sharedFiles).bind (dropPeerFromRecord p)
      else alookup h st.sharedFiles := by
  by_cases ht : (alookup p st.peers).isSome
  · rw [removePeer_tracked ht, if_pos ht]
    exact alookup_stripPeer p hnd
  · rw [removePeer_untracked ht, if_neg ht]

/-- If a record survives `_remove_peer`, it comes from the old record with at
most one peer stripped. -/
theorem removePeer_survivor {st : NodeState} {p : Addr} {h : String} {r' : FileRecord}
    (hnd : (st.sharedFiles.map Prod.fst).Nodup)
    (hl : alookup h (removePeer st p).sharedFiles = some r') :
    ∃ r, alookup h st.sharedFiles = some r ∧
      (r' = r ∨ (p ∈ r.peers ∧ r' = ⟨removeFirst p r.peers, r.name⟩)) := by
  rw [alookup_removePeer_sharedFiles hnd] at hl
  by_cases ht : (alookup p st.peers).isSome
  · rw [if_pos ht] at hl
    cases hr : alookup h st.sharedFiles with
    | none => rw [hr, Option.none_bind] at hl; exact absurd hl (by simp)
    | some r =>
      rw [hr, Option.some_bind] at hl
      refine ⟨r, rfl, ?_⟩
      rcases dropPeerFromRecord_some_cases hl with ⟨_, rfl⟩ | ⟨hp, _, rfl⟩
      · exact Or.inl rfl
      · exact Or.inr ⟨hp, rfl⟩
  · rw [if_neg ht] at hl
    exact ⟨r', hl, Or.inl rfl⟩

/-- A record deleted by a sequence of `_remove_peer` calls had all of its
peers among the removed addresses (so no record with a surviving peer is
ever deleted), and the sequence was nonempty. -/
theorem foldl_removePeer_delete_char {ps : List Addr} {st : NodeState}
    {h : String} {r : FileRecord}
    (hnd : (st.sharedFiles.map Prod.fst).Nodup)
    (hr : alookup h st.sharedFiles = some r)
    (hdel : alookup h (ps.foldl removePeer st).sharedFiles = none) :
    ps ≠ [] ∧ ∀ q ∈ r.peers, q ∈ ps := by
  induction ps generalizing st r with
  | nil =>
    rw [List.foldl_nil, hr] at hdel
    exact absurd hdel (by simp)
  | cons p rest ih =>
    rw [List.foldl_cons] at hdel
    refine ⟨List.cons_ne_nil _ _, ?_⟩
    intro q hqr
    cases hmid : alookup h (removePeer st p).sharedFiles with
    | none =>
      rw [alookup_removePeer_sharedFiles hnd] at hmid
      by_cases ht : (alookup p st.peers).isSome
      · rw [if_pos ht, hr, Option.some_bind] at hmid
        rcases dropPeerFromRecord_none_iff.1 hmid with ⟨hp, hnil⟩
        have : r.peers = [p] := removeFirst_eq_nil hp hnil
        rw [this] at hqr
        rcases List.mem_singleton.1 hqr with rfl
        exact List.mem_cons_self _ _
      · rw [if_neg ht, hr] at hmid
        exact absurd hmid (by simp)
    | some r' =>
      have ih' := ih (removePeer_sharedFiles_nodup p hnd) hmid hdel
      rcases removePeer_survivor hnd hmid with ⟨r0, hr0, hcase⟩
      rw [hr] at hr0
      rcases Option.some.inj hr0 with rfl
      rcases hcase with rfl | ⟨hp, rfl⟩
      · exact List.mem_cons_of_mem _ (ih'.2 q hqr)
      · by_cases hqp : q = p
        · exact hqp ▸ List.mem_cons_self _ _
        · exact List.mem_cons_of_mem _
            (ih'.2 q (mem_removeFirst_of_ne hqp hqr))

/-- A record surviving a sequence of `_remove_peer` calls is the old record
with some peers removed: the peer set only shrinks. -/
theorem foldl_removePeer_shrink {ps : List Addr} {st : NodeState}
    {h : String} {r'' : FileRecord}
    (hnd : (st.sharedFiles.map Prod.fst).Nodup)
    (hl : alookup h (ps.foldl removePeer st).sharedFiles = some r'') :
    ∃ r, alookup h st.sharedFiles = some r ∧ r''.peers ⊆ r.peers := by
  induction ps generalizing st with
  | nil => exact ⟨r'', hl, fun _ hx => hx⟩
  | cons p rest ih =>
    rw [List.foldl_cons] at hl
    rcases ih (removePeer_sharedFiles_nodup p hnd) hl with ⟨r1, hr1, hsub1⟩
    rcases removePeer_survivor hnd hr1 with ⟨r0, hr0, hcase⟩
    refine ⟨r0, hr0, ?_⟩
    rcases hcase with rfl | ⟨hp, rfl⟩
    · exact hsub1
    · exact fun x hx => mem_of_mem_removeFirst (hsub1 hx)

/-- After a sweep that removes `p` (among others, all distinct and tracked),
no surviving record contains `p`. -/
theorem foldl_removePeer_not_mem_record {ps : List Addr} {st : NodeState} {p : Addr}
    (hwf : WFState st) (hps : ps.Nodup)
    (htr : ∀ q ∈ ps, (alookup q st.peers).isSome) (hp : p ∈ ps) :
    ∀ h r', alookup h (ps.foldl removePeer st).sharedFiles = some r' →
      p ∉ r'.peers := by
  induction ps generalizing st with
  | nil => simp at hp
  | cons p0 rest ih =>
    intro h r' hl
    rw [List.foldl_cons] at hl
    have ht0 : (alookup p0 st.peers).isSome := htr p0 (List.mem_cons_self _ _)
    rcases List.mem_cons.1 hp with rfl | hprest
    · -- p is stripped from every record in this step, and peers only shrink after
      rcases foldl_removePeer_shrink (removePeer_sharedFiles_nodup p hwf.2.1) hl
        with ⟨r1, hr1, hsub⟩
      intro hmem
      apply absurd (hsub hmem)
      rw [removePeer_tracked ht0] at hr1
      rcases mem_stripPeer (alookup_mem hr1) with ⟨e0, he0, _, hdrop⟩
      exact dropPeerFromRecord_not_mem (hwf.2.2 e0 he0) hdrop
    · have hps' := (List.nodup_cons.1 hps).2
      have hp0 : p0 ∉ rest := (List.nodup_cons.1 hps).1
      refine ih (removePeer_WF p0 hwf) hps' ?_ hprest h r' hl
      intro q hq
      have hqne : q ≠ p0 := fun hqeq => hp0 (hqeq ▸ hq)
      rw [alookup_removePeer_peers_ne hqne]
      exact htr q (List.mem_cons_of_mem _ hq)

/-- A nonempty record all of whose peers are removed (by distinct, tracked
addresses) is deleted by the sweep. -/
theorem foldl_removePeer_deletes {ps : List Addr} {st : NodeState}
    {h : String} {r : FileRecord}
    (hwf : WFState st) (hps : ps.Nodup)
    (htr : ∀ q ∈ ps, (alookup q st.peers).isSome)
    (hr : alookup h st.sharedFiles = some r) (hne : r.peers ≠ [])
    (hsub : ∀ q ∈ r.peers, q ∈ ps) :
    alookup h (ps.foldl removePeer st).sharedFiles = none := by
  induction ps generalizing st r with
  | nil =>
    exact absurd
      (List.eq_nil_iff_forall_not_mem.2 fun q hq => List.not_mem_nil q (hsub q hq)) hne
  | cons p0 rest ih =>
    rw [List.foldl_cons]
    have ht0 : (alookup p0 st.peers).isSome := htr p0 (List.mem_cons_self _ _)
    have hps' := (List.nodup_cons.1 hps).2
    have hp0 : p0 ∉ rest := (List.nodup_cons.1 hps).1
    have htr' : ∀ q ∈ rest, (alookup q (removePeer st p0).peers).isSome := by
      intro q hq
      have hqne : q ≠ p0 := fun hqeq => hp0 (hqeq ▸ hq)
      rw [alookup_removePeer_peers_ne hqne]
      exact htr q (List.mem_cons_of_mem _ hq)
    have hmid : alookup h (removePeer st p0).sharedFiles =
        dropPeerFromRecord p0 r := by
      rw [alookup_removePeer_sharedFiles hwf.2.1, if_pos ht0, hr, Option.some_bind]
    cases hd : dropPeerFromRecord p0 r with
    | none =>
      exact foldl_removePeer_sharedFiles_none rest (hd ▸ hmid)
    | some r' =>
      have hrnodup : r.peers.Nodup := hwf.2.2 (h, r) (alookup_mem hr)
      rcases dropPeerFromRecord_some_cases hd with ⟨hpnot, rfl⟩ | ⟨hpin, hne', rfl⟩
      · refine ih (removePeer_WF p0 hwf) hps' htr' (hd ▸ hmid) hne ?_
        intro q hq
        rcases List.mem_cons.1 (hsub q hq) with rfl | hqrest
        · exact absurd hq hpnot
        · exact hqrest
      · refine ih (removePeer_WF p0 hwf) hps' htr' (hd ▸ hmid) hne' ?_
        intro q hq
        have hqr : q ∈ r.peers := mem_of_mem_removeFirst hq
        have hqp0 : q ≠ p0 := by
          intro hqeq
          exact not_mem_removeFirst p0 r.peers hrnodup (hqeq ▸ hq)
        rcases List.mem_cons.1 (hsub q hqr) with rfl | hqrest
        · exact absurd rfl hqp0
        · exact hqrest

/-! ### recordRemote lemmas -/

theorem alookup_append_single_self (fh : String) (sf : List (String × FileRecord))
    (v : FileRecord) (h0 : alookup fh sf = none) :
    alookup fh (sf ++ [(fh, v)]) = some v := by
  rw [alookup_append_right fh sf _ h0]
  simp [alookup]

theorem alookup_append_single_ne {h fh : String} (sf : List (String × FileRecord))
    (v : FileRecord) (hne : h ≠ fh) :
    alookup h (sf ++ [(fh, v)]) = alookup h sf := by
  cases h0 : alookup h sf with
  | none =>
    rw [alookup_append_right h sf _ h0]
    simp [alookup, Ne.symm hne]
  | some r => exact alookup_append_left h sf _ h0

theorem recordRemote_of_none {sf : List (String × FileRecord)} {fh fn : String}
    {a : Addr} (h0 : alookup fh sf = none) :
    recordRemote sf fh fn a =
      aupdate fh (fun r0 => ⟨r0.peers ++ [a], r0.name⟩) (sf ++ [(fh, ⟨[], fn⟩)]) := by
  simp only [recordRemote, h0]
  rw [alookup_append_single_self fh sf _ h0]
  simp

theorem recordRemote_of_some_mem {sf : List (String × FileRecord)} {fh fn : String}
    {a : Addr} {r : FileRecord} (h0 : alookup fh sf = some r) (ha : a ∈ r.peers) :
    recordRemote sf fh fn a = sf := by
  simp only [recordRemote, h0]
  rw [if_pos ha]

theorem recordRemote_of_some_not_mem {sf : List (String × FileRecord)}
    {fh fn : String} {a : Addr} {r : FileRecord} (h0 : alookup fh sf = some r)
    (ha : a ∉ r.peers) :
    recordRemote sf fh fn a =
      aupdate fh (fun r0 => ⟨r0.peers ++ [a], r0.name⟩) sf := by
  simp only [recordRemote, h0]
  rw [if_neg ha]

theorem alookup_recordRemote_self_none {sf : List (String × FileRecord)}
    {fh fn : String} {a : Addr} (h0 : alookup fh sf = none) :
    alookup fh (recordRemote sf fh fn a) = some ⟨[a], fn⟩ := by
  rw [recordRemote_of_none h0, alookup_aupdate_self,
    alookup_append_single_self fh sf _ h0]
  rfl

theorem alookup_recordRemote_self_some {sf : List (String × FileRecord)}
    {fh fn : String} {a : Addr} {r : FileRecord} (h0 : alookup fh sf = some r) :
    alookup fh (recordRemote sf fh fn a) =
      some (if a ∈ r.peers then r else ⟨r.peers ++ [a], r.name⟩) := by
  by_cases ha : a ∈ r.peers
  · rw [recordRemote_of_some_mem h0 ha, if_pos ha, h0]
  · rw [recordRemote_of_some_not_mem h0 ha, if_neg ha, alookup_aupdate_self, h0]
    rfl

theorem alookup_recordRemote_ne {sf : List (String × FileRecord)}
    {h fh fn : String} {a : Addr} (hne : h ≠ fh) :
    alookup h (recordRemote sf fh fn a) = alookup h sf := by
  cases h0 : alookup fh sf with
  | none =>
    rw [recordRemote_of_none h0, alookup_aupdate_ne _ _ (Ne.symm hne),
      alookup_append_single_ne sf _ hne]
  | some r =>
    by_cases ha : a ∈ r.peers
    · rw [recordRemote_of_some_mem h0 ha]
    · rw [recordRemote_of_some_not_mem h0 ha, alookup_aupdate_ne _ _ (Ne.symm hne)]

theorem alookup_recordRemote_isSome {sf : List (String × FileRecord)}
    {h fh fn : String} {a : Addr} (hs : (alookup h sf).isSome) :
    (alookup h (recordRemote sf fh fn a)).isSome := by
  by_cases hne : h = fh
  · subst hne
    cases h0 : alookup h sf with
    | none => rw [h0] at hs; exact absurd hs (by simp)
    | some r => rw [alookup_recordRemote_self_some h0]; rfl
  · rw [alookup_recordRemote_ne hne]; exact hs

theorem recordRemote_mem_self (sf : List (String × FileRecord)) (fh fn : String)
    (a : Addr) :
    ∃ rec, alookup fh (recordRemote sf fh fn a) = some rec ∧ a ∈ rec.peers := by
  cases h0 : alookup fh sf with
  | none =>
    exact ⟨⟨[a], fn⟩, alookup_recordRemote_self_none h0, List.mem_singleton.2 rfl⟩
  | some r =>
    by_cases ha : a ∈ r.peers
    · exact ⟨r, by rw [alookup_recordRemote_self_some h0, if_pos ha], ha⟩
    · refine ⟨⟨r.peers ++ [a], r.name⟩, ?_, by simp⟩
      rw [alookup_recordRemote_self_some h0, if_neg ha]

theorem alookup_foldl_recordRemote_isSome {files : List (String × String)}
    {sf : List (String × FileRecord)} {h : String} {a : Addr}
    (hs : (alookup h sf).isSome) :
    (alookup h (files.foldl (fun sf0 f => recordRemote sf0 f.1 f.2 a) sf)).isSome := by
  induction files generalizing sf with
  | nil => exact hs
  | cons f rest ih => exact ih (alookup_recordRemote_isSome hs)

/-! ### download / request loop lemmas -/

theorem downloadGo_attempts_lt (sha : List Nat → String) (fileHash : String)
    (nameRes : Option String) (saveDir : String) (net : Nat → AttemptNet) :
    ∀ fuel idx sleeps fl lastErr, fuel ≠ 0 →
      idx < (downloadGo sha fileHash nameRes saveDir net fuel idx sleeps fl
        lastErr).attemptsMade := by
  intro fuel
  induction fuel with
  | zero => intro idx sleeps fl lastErr hf; exact absurd rfl hf
  | succ f ih =>
    intro idx sleeps fl lastErr _
    rw [downloadGo]
    cases hstep : attemptStep sha fileHash nameRes saveDir (net idx) with
    | mk res eff =>
      cases res with
      | ok v =>
        obtain ⟨path, bytes⟩ := v
        exact Nat.lt_succ_self idx
      | error e =>
        obtain ⟨kind, m⟩ := e
        cases kind with
        | sockTimeout =>
          by_cases hfz : f = 0
          · simp only [hfz, if_pos rfl]
            exact Nat.lt_succ_self idx
          · simp only [if_neg hfz]
            exact Nat.lt_trans (Nat.lt_succ_self idx) (ih _ _ _ _ hfz)
        | refused => exact Nat.lt_succ_self idx
        | other => exact Nat.lt_succ_self idx

theorem downloadFromPeer_attempts_pos (sha : List Nat → String)
    (sf : List (String × FileRecord)) (fileHash : String) (saveAs : Option String)
    (saveDir : String) (net : Nat → AttemptNet) :
    0 < (downloadFromPeer sha sf fileHash saveAs saveDir net).attemptsMade :=
  downloadGo_attempts_lt sha fileHash _ saveDir net _ 0 0 none ⟨"", false⟩
    (by simp [defaultMaxRetries])

theorem alookup_isSome_of_mem {α β : Type} [DecidableEq α] {k : α} {v : β}
    {l : List (α × β)} (h : (k, v) ∈ l) : (alookup k l).isSome := by
  induction l with
  | nil => simp at h
  | cons e rest ih =>
    by_cases he : e.1 = k
    · rw [alookup, if_pos he]; rfl
    · rw [alookup, if_neg he]
      rcases List.mem_cons.1 h with h1 | h1
      · exact absurd (congrArg Prod.fst h1.symm) he
      · exact ih h1

theorem mem_expiredPeers {st : NodeState} {now : Int} {q : Addr} {tq : Int}
    (hq : alookup q st.peers = some tq) (hlt : inactiveThreshold < now - tq) :
    q ∈ expiredPeers st now := by
  unfold expiredPeers
  exact List.mem_map.2 ⟨(q, tq),
    List.mem_filter.2 ⟨alookup_mem hq, by simpa using hlt⟩, rfl⟩

theorem expiredPeers_nodup {st : NodeState} (now : Int)
    (hnd : (st.peers.map Prod.fst).Nodup) : (expiredPeers st now).Nodup :=
  hnd.sublist ((List.filter_sublist _).map Prod.fst)

theorem expiredPeers_tracked {st : NodeState} (now : Int) :
    ∀ q ∈ expiredPeers st now, (alookup q st.peers).isSome := by
  intro q hq
  unfold expiredPeers at hq
  rcases List.mem_map.1 hq with ⟨e, he, rfl⟩
  obtain ⟨a, b⟩ := e
  exact alookup_isSome_of_mem (List.mem_filter.1 he).1

theorem requestGo_conns_le (sha : List Nat → String)
    (sf : List (String × FileRecord)) (fileHash : String) (saveAs : Option String)
    (saveDir : String) (net : Addr → Nat → AttemptNet) :
    ∀ ps lastErr failed conns, conns ≤
      (requestGo sha sf fileHash saveAs saveDir net ps lastErr failed
        conns).connectionsOpened := by
  intro ps
  induction ps with
  | nil => intro lastErr failed conns; exact Nat.le_refl conns
  | cons p rest ih =>
    intro lastErr failed conns
    rw [requestGo]
    cases hdl : (downloadFromPeer sha sf fileHash saveAs saveDir (net p)).outcome with
    | returned path => exact Nat.le_add_right conns _
    | raised e =>
      exact Nat.le_trans (Nat.le_add_right conns _) (ih _ _ _)


/-! ### attemptStep / downloadGo computation lemmas -/

theorem attemptStep_mismatch {sha : List Nat → String} {fileHash nm saveDir : String}
    {events : List StreamEvent} {bytes : List Nat}
    (h2 : readLoop events 0 [] = .ok bytes) (h3 : bytes ≠ [])
    (h4 : sha bytes ≠ fileHash) :
    attemptStep sha fileHash (some nm) saveDir (.ok events) =
      (.error (.other, "File hash verification failed"), .leftover none) := by
  have hbe : bytes.isEmpty = false := by
    cases bytes with
    | nil => exact absurd rfl h3
    | cons a l => rfl
  simp [attemptStep, h2, hbe, h4]

theorem attemptStep_success {sha : List Nat → String} {fileHash nm saveDir : String}
    {events : List StreamEvent} {bytes : List Nat}
    (h6 : readLoop events 0 [] = .ok bytes) (h7 : bytes ≠ [])
    (h8 : sha bytes = fileHash) :
    attemptStep sha fileHash (some nm) saveDir (.ok events) =
      (.ok (saveDir ++ "/" ++ nm, bytes), .leftover (some bytes)) := by
  have hbe : bytes.isEmpty = false := by
    cases bytes with
    | nil => exact absurd rfl h7
    | cons a l => rfl
  simp [attemptStep, h6, hbe, h8]

theorem attemptStep_zeroTimeout {sha : List Nat → String}
    {fileHash nm saveDir : String} {events : List StreamEvent}
    (hz : readLoop events 0 [] = .error ()) :
    attemptStep sha fileHash (some nm) saveDir (.ok events) =
      (.error (.other, "Timeout while receiving file data"), .leftover (some [])) := by
  simp [attemptStep, hz]

theorem downloadGo_step_other {sha : List Nat → String}
    {fileHash : String} {nameRes : Option String} {saveDir : String}
    {net : Nat → AttemptNet} {idx sleeps : Nat} {fl : Option (List Nat)}
    {le : DlError} {m : String} {eff : DiskEffect} (fuel : Nat)
    (hstep : attemptStep sha fileHash nameRes saveDir (net idx) =
      (.error (.other, m), eff)) :
    downloadGo sha fileHash nameRes saveDir net (fuel + 1) idx sleeps fl le =
      ⟨.raised ⟨m, false⟩, idx + 1, sleeps, applyEff fl eff⟩ := by
  rw [downloadGo, hstep]

theorem downloadGo_step_ok {sha : List Nat → String}
    {fileHash : String} {nameRes : Option String} {saveDir : String}
    {net : Nat → AttemptNet} {idx sleeps : Nat} {fl : Option (List Nat)}
    {le : DlError} {path : String} {bytes : List Nat} {eff : DiskEffect} (fuel : Nat)
    (hstep : attemptStep sha fileHash nameRes saveDir (net idx) =
      (.ok (path, bytes), eff)) :
    downloadGo sha fileHash nameRes saveDir net (fuel + 1) idx sleeps fl le =
      ⟨.returned path, idx + 1, sleeps, applyEff fl eff⟩ := by
  rw [downloadGo, hstep]

theorem downloadGo_step_timeout {sha : List Nat → String}
    {fileHash : String} {nameRes : Option String} {saveDir : String}
    {net : Nat → AttemptNet} {idx sleeps : Nat} {fl : Option (List Nat)}
    {le : DlError} {m : String} {eff : DiskEffect} (fuel : Nat)
    (hstep : attemptStep sha fileHash nameRes saveDir (net idx) =
      (.error (.sockTimeout, m), eff)) :
    downloadGo sha fileHash nameRes saveDir net (fuel + 1) idx sleeps fl le =
      if fuel = 0 then
        ⟨.raised ⟨"Connection to peer timed out", false⟩, idx + 1, sleeps,
          applyEff fl eff⟩
      else
        downloadGo sha fileHash nameRes saveDir net fuel (idx + 1) (sleeps + 1)
          (applyEff fl eff) ⟨"Connection to peer timed out", false⟩ := by
  rw [downloadGo, hstep]

theorem requestFile_eq_go {sha : List Nat → String} {st : NodeState}
    {fileHash : String} {saveAs : Option String} {saveDir : String}
    {net : Addr → Nat → AttemptNet} {r : FileRecord}
    (hr : alookup fileHash st.sharedFiles = some r) (hne : r.peers ≠ []) :
    requestFile sha st fileHash saveAs saveDir net =
      requestGo sha st.sharedFiles fileHash saveAs saveDir net r.peers none [] 0 := by
  have hemp : r.peers.isEmpty = false := by
    cases hp : r.peers with
    | nil => exact absurd hp hne
    | cons a l => rfl
  unfold requestFile
  simp only [hr, hemp, Bool.false_eq_true, if_false]

/-! ### Claim theorems -/

/-- C4: For every peer whose last-seen timestamp is older than the 30-second
threshold, after `_cleanup_peers` (the sweep) runs that peer is absent from
the AddressBook and from every FileRecord's peer set, and every FileRecord
whose peer set becomes empty (a nonempty record all of whose peers are
expired) is removed entirely from the FileDirectory. -/
theorem c4_sweep_expired (st : NodeState) (now : Int) (p : Addr) (t : Int)
    (hwf : WFState st) (hp : alookup p st.peers = some t)
    (hold : inactiveThreshold < now - t) :
    alookup p (cleanupPeers st now).peers = none
    ∧ (∀ h r', alookup h (cleanupPeers st now).sharedFiles = some r' →
        p ∉ r'.peers)
    ∧ (∀ h r, alookup h st.sharedFiles = some r → r.peers ≠ [] →
        (∀ q ∈ r.peers, ∃ tq, alookup q st.peers = some tq ∧
          inactiveThreshold < now - tq) →
        alookup h (cleanupPeers st now).sharedFiles = none) := by
  have hp_mem : p ∈ expiredPeers st now := mem_expiredPeers hp hold
  refine ⟨?_, ?_, ?_⟩
  · exact foldl_removePeer_peers_mem hwf.1 hp_mem
  · exact foldl_removePeer_not_mem_record hwf (expiredPeers_nodup now hwf.1)
      (expiredPeers_tracked now) hp_mem
  · intro h r hr hne hq
    refine foldl_removePeer_deletes hwf (expiredPeers_nodup now hwf.1)
      (expiredPeers_tracked now) hr hne ?_
    intro q hqr
    rcases hq q hqr with ⟨tq, htq, hlt⟩
    exact mem_expiredPeers htq hlt

/-- Witness for C4 at a concrete state: a peer last seen at time 0, swept at
time 100, is gone from the AddressBook. -/
theorem c4_witness :
    alookup ("10.0.0.2", 6000)
      (cleanupPeers
        (NodeState.mk "h" 1 [(("10.0.0.2", 6000), 0)]
          [("H", ⟨[("10.0.0.2", 6000)], "f"⟩)] []) 100).peers = none :=
  (c4_sweep_expired
    (NodeState.mk "h" 1 [(("10.0.0.2", 6000), 0)]
      [("H", ⟨[("10.0.0.2", 6000)], "f"⟩)] []) 100 ("10.0.0.2", 6000) 0
    (by decide) (by decide) (by decide)).1

/-- C5: `share_file` is idempotent: sharing identical bytes twice yields the
identical hash, and the second call does not duplicate the node's own
(host, port) entry in that hash's FileRecord peer set (the occurrence count
of the own address is unchanged by the second call). -/
theorem c5_shareFile_idempotent (sha : List Nat → String) (st : NodeState)
    (bytes : List Nat) (path : String) :
    (shareFile sha (shareFile sha st bytes path).1 bytes path).2 =
      (shareFile sha st bytes path).2
    ∧ ∀ rec1 rec2,
        alookup (shareFile sha st bytes path).2
          (shareFile sha st bytes path).1.sharedFiles = some rec1 →
        alookup (shareFile sha (shareFile sha st bytes path).1 bytes path).2
          (shareFile sha (shareFile sha st bytes path).1 bytes path).1.sharedFiles =
            some rec2 →
        List.count (st.host, st.port) rec2.peers =
          List.count (st.host, st.port) rec1.peers := by
  constructor
  · rfl
  · intro rec1 rec2 hl1 hl2
    have h1 : alookup (sha bytes)
        (recordRemote st.sharedFiles (sha bytes) (basename path) (st.host, st.port)) =
        some rec1 := hl1
    have h2 : alookup (sha bytes)
        (recordRemote
          (recordRemote st.sharedFiles (sha bytes) (basename path) (st.host, st.port))
          (sha bytes) (basename path) (st.host, st.port)) = some rec2 := hl2
    obtain ⟨rec, hrec, hmem⟩ :=
      recordRemote_mem_self st.sharedFiles (sha bytes) (basename path) (st.host, st.port)
    have e1 : rec1 = rec := Option.some.inj (h1.symm.trans hrec)
    have hmem1 : (st.host, st.port) ∈ rec1.peers := e1 ▸ hmem
    rw [recordRemote_of_some_mem h1 hmem1] at h2
    have e2 : rec2 = rec1 := Option.some.inj (h2.symm.trans h1)
    rw [e2]

/-- Witness for C5 at a concrete node and file. -/
theorem c5_witness :
    List.count ("h", (1 : Int)) (FileRecord.mk [("h", 1)] "f.txt").peers =
      List.count ("h", (1 : Int)) (FileRecord.mk [("h", 1)] "f.txt").peers :=
  (c5_shareFile_idempotent (fun _ => "H") (NodeState.mk "h" 1 [] [] [])
    [1] "dir/f.txt").2 ⟨[("h", 1)], "f.txt"⟩ ⟨[("h", 1)], "f.txt"⟩ rfl rfl

/-- C7: Processing an `announce_file` message applies the `recordRemote`
update to the FileDirectory for the announced (hash, name, sender) — create
the record if unseen, append the sender if absent, leave other hashes
alone — and leaves the AddressBook (and LocalHoldings) unchanged: the
handler never inserts or refreshes the sender's peer record. -/
theorem c7_announce_directory_only (st : NodeState) (addr : Addr)
    (fh fn : String) :
    (handleFileAnnouncement st addr fh fn).peers = st.peers
    ∧ (handleFileAnnouncement st addr fh fn).localFiles = st.localFiles
    ∧ (alookup fh st.sharedFiles = none →
        alookup fh (handleFileAnnouncement st addr fh fn).sharedFiles =
          some ⟨[addr], fn⟩)
    ∧ (∀ r, alookup fh st.sharedFiles = some r →
        alookup fh (handleFileAnnouncement st addr fh fn).sharedFiles =
          some (if addr ∈ r.peers then r else ⟨r.peers ++ [addr], r.name⟩))
    ∧ (∀ h, h ≠ fh →
        alookup h (handleFileAnnouncement st addr fh fn).sharedFiles =
          alookup h st.sharedFiles) := by
  refine ⟨rfl, rfl, ?_, ?_, ?_⟩
  · exact fun h0 => alookup_recordRemote_self_none h0
  · exact fun r h0 => alookup_recordRemote_self_some h0
  · exact fun h hne => alookup_recordRemote_ne hne

/-- Witness for C7: a fresh announcement creates the record with the sender
as its only provider, and the AddressBook part is the unchanged `[]`. -/
theorem c7_witness :
    alookup "H"
      (handleFileAnnouncement (NodeState.mk "h" 1 [] [] []) ("a", 2) "H"
        "f").sharedFiles = some ⟨[("a", 2)], "f"⟩ :=
  (c7_announce_directory_only (NodeState.mk "h" 1 [] [] []) ("a", 2) "H"
    "f").2.2.1 rfl

/-- C9: `_remove_peer` (the dropPeer cascade) is the only operation that can
delete a FileRecord from the FileDirectory, and a FileRecord that still has
a peer not being evicted is never deleted: whenever any operation deletes
the record of `h`, the operation performed evictions and every peer of the
old record is among the evicted addresses. -/
theorem c9_only_dropPeer_deletes (sha : List Nat → String) (op : Op)
    (st : NodeState) (h : String) (r : FileRecord)
    (hnd : (st.sharedFiles.map Prod.fst).Nodup)
    (hr : alookup h st.sharedFiles = some r)
    (hdel : alookup h (applyOp sha st op).sharedFiles = none) :
    opEvicts sha st op ≠ [] ∧ ∀ q ∈ r.peers, q ∈ opEvicts sha st op := by
  cases op with
  | hello a mh mp now =>
    exfalso
    have hframe : (handleHello st a mh mp now).sharedFiles = st.sharedFiles := by
      unfold handleHello; split <;> rfl
    rw [show applyOp sha st (.hello a mh mp now) = handleHello st a mh mp now from rfl,
      hframe, hr] at hdel
    exact absurd hdel (by simp)
  | helloResponse a mh mp files now =>
    exfalso
    have hs : (alookup h st.sharedFiles).isSome := by rw [hr]; rfl
    have : (alookup h (applyOp sha st (.helloResponse a mh mp files now)).sharedFiles).isSome := by
      show (alookup h (handleHelloResponse st a mh mp files now).sharedFiles).isSome
      unfold handleHelloResponse
      split
      · exact hs
      · exact alookup_foldl_recordRemote_isSome hs
    rw [hdel] at this
    exact absurd this (by simp)
  | announce a fh fn =>
    exfalso
    have hs : (alookup h st.sharedFiles).isSome := by rw [hr]; rfl
    have : (alookup h (applyOp sha st (.announce a fh fn)).sharedFiles).isSome :=
      alookup_recordRemote_isSome hs
    rw [hdel] at this
    exact absurd this (by simp)
  | share bytes path =>
    exfalso
    have hs : (alookup h st.sharedFiles).isSome := by rw [hr]; rfl
    have : (alookup h (applyOp sha st (.share bytes path)).sharedFiles).isSome :=
      alookup_recordRemote_isSome hs
    rw [hdel] at this
    exact absurd this (by simp)
  | goodbye a => exact foldl_removePeer_delete_char hnd hr hdel
  | drop a => exact foldl_removePeer_delete_char hnd hr hdel
  | cleanup now => exact foldl_removePeer_delete_char hnd hr hdel
  | request fh sa sd net => exact foldl_removePeer_delete_char hnd hr hdel

/-- Witness for C9: a goodbye from the sole provider deletes the record, and
the theorem reports that provider as evicted. -/
theorem c9_witness :
    opEvicts (fun _ => "H")
      (NodeState.mk "h" 1 [(("a", 2), 0)] [("H", ⟨[("a", 2)], "f"⟩)] [])
      (Op.goodbye ("a", 2)) ≠ [] :=
  (c9_only_dropPeer_deletes (fun _ => "H") (Op.goodbye ("a", 2))
    (NodeState.mk "h" 1 [(("a", 2), 0)] [("H", ⟨[("a", 2)], "f"⟩)] [])
    "H" ⟨[("a", 2)], "f"⟩ (by decide) rfl rfl).1

theorem applyOp_host (sha : List Nat → String) (st : NodeState) (op : Op) :
    (applyOp sha st op).host = st.host := by
  cases op with
  | hello a mh mp now => show (handleHello st a mh mp now).host = st.host
                         unfold handleHello; split <;> rfl
  | helloResponse a mh mp files now =>
    show (handleHelloResponse st a mh mp files now).host = st.host
    unfold handleHelloResponse; split <;> rfl
  | announce a fh fn => rfl
  | goodbye a => exact removePeer_host st a
  | cleanup now => exact foldl_removePeer_host _ _
  | share bytes path => rfl
  | drop a => exact removePeer_host st a
  | request fh sa sd net => exact foldl_removePeer_host _ _

theorem applyOp_port (sha : List Nat → String) (st : NodeState) (op : Op) :
    (applyOp sha st op).port = st.port := by
  cases op with
  | hello a mh mp now => show (handleHello st a mh mp now).port = st.port
                         unfold handleHello; split <;> rfl
  | helloResponse a mh mp files now =>
    show (handleHelloResponse st a mh mp files now).port = st.port
    unfold handleHelloResponse; split <;> rfl
  | announce a fh fn => rfl
  | goodbye a => exact removePeer_port st a
  | cleanup now => exact foldl_removePeer_port _ _
  | share bytes path => rfl
  | drop a => exact removePeer_port st a
  | request fh sa sd net => exact foldl_removePeer_port _ _

/-- C8 (counterexample): a `hello` whose declared `host`/`port` fields equal
this node's own discovery address but whose datagram source address is a
different machine is NOT ignored — the source handler never reads the
declared fields, so the message reaches the AddressBook and inserts the
sender. -/
theorem c8_counterexample :
    (handleHello (NodeState.mk "10.0.0.1" 5000 [] [] []) ("10.0.0.2", 6000)
      "10.0.0.1" 5000 100).peers = [(("10.0.0.2", 6000), 100)]
    ∧ handleHello (NodeState.mk "10.0.0.1" 5000 [] [] []) ("10.0.0.2", 6000)
        "10.0.0.1" 5000 100 ≠ NodeState.mk "10.0.0.1" 5000 [] [] [] := by
  constructor
  · rfl
  · decide

/-- C8 (amended): the self filter compares the datagram source address, not
the declared fields: `hello` and `hello_response` arriving from the node's
own address are ignored entirely, and consequently — since no other
operation inserts peers — the node's own address never appears in the
AddressBook (the absence of the own address is preserved by every
operation, which also leaves the node's own host/port unchanged). -/
theorem c8_amended (sha : List Nat → String) (st : NodeState) (op : Op)
    (hself : alookup (st.host, st.port) st.peers = none) :
    alookup (st.host, st.port) (applyOp sha st op).peers = none
    ∧ (applyOp sha st op).host = st.host
    ∧ (applyOp sha st op).port = st.port
    ∧ (∀ mh mp now, handleHello st (st.host, st.port) mh mp now = st)
    ∧ (∀ mh mp files now,
        handleHelloResponse st (st.host, st.port) mh mp files now = st) := by
  refine ⟨?_, applyOp_host sha st op, applyOp_port sha st op, ?_, ?_⟩
  · cases op with
    | hello a mh mp now =>
      show alookup _ (handleHello st a mh mp now).peers = none
      unfold handleHello
      by_cases hc : a.1 = st.host ∧ a.2 = st.port
      · rw [if_pos hc]; exact hself
      · rw [if_neg hc]
        show alookup _ (aupsert a now st.peers) = none
        rw [alookup_aupsert_ne _ _
          (fun heq => hc ⟨congrArg Prod.fst heq, congrArg Prod.snd heq⟩)]
        exact hself
    | helloResponse a mh mp files now =>
      show alookup _ (handleHelloResponse st a mh mp files now).peers = none
      unfold handleHelloResponse
      by_cases hc : a.1 = st.host ∧ a.2 = st.port
      · rw [if_pos hc]; exact hself
      · rw [if_neg hc]
        show alookup _ (aupsert a now st.peers) = none
        rw [alookup_aupsert_ne _ _
          (fun heq => hc ⟨congrArg Prod.fst heq, congrArg Prod.snd heq⟩)]
        exact hself
    | announce a fh fn => exact hself
    | goodbye a => exact alookup_removePeer_peers_none hself
    | cleanup now => exact foldl_removePeer_peers_none _ hself
    | share bytes path => exact hself
    | drop a => exact alookup_removePeer_peers_none hself
    | request fh sa sd net => exact foldl_removePeer_peers_none _ hself
  · intro mh mp now
    unfold handleHello
    rw [if_pos ⟨rfl, rfl⟩]
  · intro mh mp files now
    unfold handleHelloResponse
    rw [if_pos ⟨rfl, rfl⟩]

/-- Witness for C8 (amended): a hello arriving from the node's own source
address is a no-op. -/
theorem c8_witness :
    handleHello (NodeState.mk "h" 1 [] [] []) ("h", 1) "x" 9 100 =
      NodeState.mk "h" 1 [] [] [] :=
  (c8_amended (fun _ => "H") (NodeState.mk "h" 1 [] [] [])
    (Op.hello ("h", 1) "x" 9 100) rfl).2.2.2.1 "x" 9 100

/-- C10: Removing a peer address that is not currently in the AddressBook
(`_remove_peer` on an untracked address: a goodbye from an untracked sender,
or the eviction of an address learned only via `announce_file`) is a
complete no-op — AddressBook, every FileRecord's peer set and LocalHoldings
are all left exactly as they were. -/
theorem c10_remove_untracked_noop (st : NodeState) (p : Addr)
    (h : alookup p st.peers = none) : removePeer st p = st :=
  removePeer_untracked (by rw [h]; simp)

/-- Witness for C10: evicting an address that only occurs inside a
FileRecord (never tracked as a live peer) changes nothing. -/
theorem c10_witness :
    removePeer
      (NodeState.mk "h" 1 [(("a", 2), 0)] [("H", ⟨[("b", 9)], "f"⟩)] [])
      ("b", 9) =
      NodeState.mk "h" 1 [(("a", 2), 0)] [("H", ⟨[("b", 9)], "f"⟩)] [] :=
  c10_remove_untracked_noop
    (NodeState.mk "h" 1 [(("a", 2), 0)] [("H", ⟨[("b", 9)], "f"⟩)] [])
    ("b", 9) (by decide)

/-- C1 (counterexample): a hash that IS locally held ("/data/f.txt" in
LocalHoldings). `request_file` does not return that path and does not stay
off the network: it opens a connection (one per attempt), fails, and raises,
because the source never consults `self.local_files`. -/
theorem c1_counterexample :
    (alookup "H" (NodeState.mk "10.0.0.1" 5000 []
        [("H", ⟨[("10.0.0.1", 5000)], "f.txt"⟩)]
        [("H", ⟨"/data/f.txt", "f.txt"⟩)]).localFiles).isSome = true
    ∧ requestFile (fun _ => "H")
        (NodeState.mk "10.0.0.1" 5000 []
          [("H", ⟨[("10.0.0.1", 5000)], "f.txt"⟩)]
          [("H", ⟨"/data/f.txt", "f.txt"⟩)])
        "H" none "/home/u" (fun _ _ => AttemptNet.connectRefused) =
        ⟨.failed ⟨"Connection to peer was refused", false⟩, [("10.0.0.1", 5000)], 1⟩ :=
  ⟨rfl, rfl⟩

/-- C1 (amended): `request_file` has no LocalHoldings fast path: its result
is entirely independent of `self.local_files` (the call on a state with any
other LocalHoldings is identical), and whenever the requested hash has at
least one candidate peer the call opens at least one network connection
rather than returning the stored local path. -/
theorem c1_no_local_fast_path (sha : List Nat → String) (st : NodeState)
    (lf : List (String × LocalFile)) (fileHash : String) (saveAs : Option String)
    (saveDir : String) (net : Addr → Nat → AttemptNet) :
    requestFile sha { st with localFiles := lf } fileHash saveAs saveDir net =
      requestFile sha st fileHash saveAs saveDir net
    ∧ ∀ r, alookup fileHash st.sharedFiles = some r → r.peers ≠ [] →
        1 ≤ (requestFile sha st fileHash saveAs saveDir net).connectionsOpened := by
  constructor
  · rfl
  · intro r hr hne
    rw [requestFile_eq_go hr hne]
    cases hpeers : r.peers with
    | nil => exact absurd hpeers hne
    | cons p rest =>
      rw [requestGo]
      cases hdl : (downloadFromPeer sha st.sharedFiles fileHash saveAs saveDir
          (net p)).outcome with
      | returned path =>
        have := downloadFromPeer_attempts_pos sha st.sharedFiles fileHash saveAs
          saveDir (net p)
        simpa using this
      | raised e =>
        have h1 : 1 ≤ 0 + (downloadFromPeer sha st.sharedFiles fileHash saveAs
            saveDir (net p)).attemptsMade := by
          simpa using downloadFromPeer_attempts_pos sha st.sharedFiles fileHash
            saveAs saveDir (net p)
        exact Nat.le_trans h1 (requestGo_conns_le sha st.sharedFiles fileHash
          saveAs saveDir net rest _ _ _)

/-- Witness for C1 (amended): on a state with one candidate peer, at least
one connection is opened. -/
theorem c1_witness :
    1 ≤ (requestFile (fun _ => "H")
      (NodeState.mk "h" 1 [] [("H", ⟨[("p", 2)], "f"⟩)] []) "H" none "/d"
      (fun _ _ => AttemptNet.connectRefused)).connectionsOpened :=
  (c1_no_local_fast_path (fun _ => "H")
    (NodeState.mk "h" 1 [] [("H", ⟨[("p", 2)], "f"⟩)] []) [] "H" none "/d"
    (fun _ _ => AttemptNet.connectRefused)).2 ⟨[("p", 2)], "f"⟩ rfl (by decide)

/-- C2 (counterexample): a download that completes with a matching hash —
`request_file` returns the save path, yet the hash is NOT in LocalHoldings
afterwards: `_download_from_peer` never registers the file in
`self.local_files`. -/
theorem c2_counterexample :
    (requestFile (fun _ => "H")
      (NodeState.mk "h" 1 [] [("H", ⟨[("p", 2)], "f.txt"⟩)] [])
      "H" none "/d" (fun _ _ => AttemptNet.ok [.chunk [7]])).outcome =
      .downloaded "/d/f.txt"
    ∧ alookup "H" (requestFileFinal (fun _ => "H")
        (NodeState.mk "h" 1 [] [("H", ⟨[("p", 2)], "f.txt"⟩)] [])
        "H" none "/d" (fun _ _ => AttemptNet.ok [.chunk [7]])).localFiles = none :=
  ⟨rfl, rfl⟩

/-- C2 (amended): `request_file` never touches LocalHoldings — on success it
only returns the save path (the name chosen is `save_as` or the directory
display name, used for the on-disk file only), and in every case
`self.local_files` is left exactly as it was. -/
theorem c2_no_local_registration (sha : List Nat → String) (st : NodeState)
    (fileHash : String) (saveAs : Option String) (saveDir : String)
    (net : Addr → Nat → AttemptNet) :
    (requestFileFinal sha st fileHash saveAs saveDir net).localFiles =
      st.localFiles :=
  foldl_removePeer_localFiles _ _

/-- C3: a completed download whose recomputed hash differs from the
requested hash: the file written at the save path is deleted
(`fileLeft = none`), an integrity error is raised for that peer after
exactly one attempt (no retry on the same peer), the next candidate peer is
tried (and here succeeds), and the hash never enters LocalHoldings. -/
theorem c3_hash_mismatch (sha : List Nat → String) (st : NodeState)
    (fileHash nm saveDir : String) (net : Addr → Nat → AttemptNet)
    (p1 p2 : Addr) (r : FileRecord) (events1 events2 : List StreamEvent)
    (bytes1 bytes2 : List Nat)
    (h1 : net p1 0 = .ok events1) (h2 : readLoop events1 0 [] = .ok bytes1)
    (h3 : bytes1 ≠ []) (h4 : sha bytes1 ≠ fileHash)
    (h5 : net p2 0 = .ok events2) (h6 : readLoop events2 0 [] = .ok bytes2)
    (h7 : bytes2 ≠ []) (h8 : sha bytes2 = fileHash)
    (hr : alookup fileHash st.sharedFiles = some r) (hpeers : r.peers = [p1, p2])
    (hlocal : alookup fileHash st.localFiles = none) :
    (downloadFromPeer sha st.sharedFiles fileHash (some nm) saveDir (net p1)).outcome =
      .raised ⟨"File hash verification failed", false⟩
    ∧ (downloadFromPeer sha st.sharedFiles fileHash (some nm) saveDir
        (net p1)).attemptsMade = 1
    ∧ (downloadFromPeer sha st.sharedFiles fileHash (some nm) saveDir
        (net p1)).fileLeft = none
    ∧ (requestFile sha st fileHash (some nm) saveDir net).outcome =
        .downloaded (saveDir ++ "/" ++ nm)
    ∧ alookup fileHash
        (requestFileFinal sha st fileHash (some nm) saveDir net).localFiles = none := by
  have hs1 : attemptStep sha fileHash (some nm) saveDir (net p1 0) =
      (.error (.other, "File hash verification failed"), .leftover none) := by
    rw [h1]; exact attemptStep_mismatch h2 h3 h4
  have hdl1 : downloadFromPeer sha st.sharedFiles fileHash (some nm) saveDir (net p1) =
      ⟨.raised ⟨"File hash verification failed", false⟩, 1, 0, none⟩ := by
    show downloadGo sha fileHash (some nm) saveDir (net p1) (2 + 1) 0 0 none
      ⟨"", false⟩ = _
    rw [downloadGo_step_other 2 hs1]
    rfl
  have hs2 : attemptStep sha fileHash (some nm) saveDir (net p2 0) =
      (.ok (saveDir ++ "/" ++ nm, bytes2), .leftover (some bytes2)) := by
    rw [h5]; exact attemptStep_success h6 h7 h8
  have hdl2 : downloadFromPeer sha st.sharedFiles fileHash (some nm) saveDir (net p2) =
      ⟨.returned (saveDir ++ "/" ++ nm), 1, 0, some bytes2⟩ := by
    show downloadGo sha fileHash (some nm) saveDir (net p2) (2 + 1) 0 0 none
      ⟨"", false⟩ = _
    rw [downloadGo_step_ok 2 hs2]
    rfl
  have hreq : requestFile sha st fileHash (some nm) saveDir net =
      ⟨.downloaded (saveDir ++ "/" ++ nm), [], 2⟩ := by
    rw [requestFile_eq_go hr (by rw [hpeers]; exact List.cons_ne_nil _ _), hpeers]
    rw [requestGo, hdl1]
    show requestGo sha st.sharedFiles fileHash (some nm) saveDir net [p2]
      (some ⟨"File hash verification failed", false⟩) [p1] 1 = _
    rw [requestGo, hdl2]
    rfl
  refine ⟨by rw [hdl1], by rw [hdl1], by rw [hdl1], by rw [hreq], ?_⟩
  unfold requestFileFinal
  rw [hreq]
  exact hlocal

/-- Witness for C3 at fully concrete inputs: peer ("a",1) serves bytes
hashing to "X" (mismatch), peer ("b",2) serves bytes hashing to "H". -/
theorem c3_witness :
    (requestFile (fun b => if b = [2] then "H" else "X")
      (NodeState.mk "h" 1 [] [("H", ⟨[("a", 1), ("b", 2)], "f"⟩)] [])
      "H" (some "f") "/d"
      (fun p _ => if p = ("a", 1) then AttemptNet.ok [.chunk [1]]
        else AttemptNet.ok [.chunk [2]])).outcome = .downloaded "/d/f" :=
  (c3_hash_mismatch (fun b => if b = [2] then "H" else "X")
    (NodeState.mk "h" 1 [] [("H", ⟨[("a", 1), ("b", 2)], "f"⟩)] [])
    "H" "f" "/d"
    (fun p _ => if p = ("a", 1) then AttemptNet.ok [.chunk [1]]
      else AttemptNet.ok [.chunk [2]])
    ("a", 1) ("b", 2) ⟨[("a", 1), ("b", 2)], "f"⟩
    [.chunk [1]] [.chunk [2]] [1] [2]
    rfl rfl (by decide) (by decide) rfl rfl (by decide) rfl rfl rfl rfl).2.2.2.1

/-- C6 (counterexample): a `socket.timeout` in the body stream after zero
bytes received is NOT retried: the handler raises a plain
`Exception("Timeout while receiving file data")`, which the attempt loop
treats as a permanent error — one attempt, no 1-second sleep. -/
theorem c6_counterexample :
    downloadFromPeer (fun _ => "H") [] "H" (some "f") "/d"
      (fun _ => AttemptNet.ok [.timeout]) =
      ⟨.raised ⟨"Timeout while receiving file data", false⟩, 1, 0, some []⟩ := rfl

/-- C6 (amended): each candidate peer gets up to 2 retries (3 total
attempts), but only a `socket.timeout` escaping the connect/response-header
phase is retried after a 1-second sleep (three connect timeouts make 3
attempts and 2 sleeps); a timeout in the body stream after zero bytes
raises a generic error that ends the attempts on this peer at once (1
attempt, 0 sleeps), while a timeout after partial bytes is not an error —
the read loop simply continues until the peer closes the connection. -/
theorem c6_retry_behaviour :
    (∀ (sha : List Nat → String) (sf : List (String × FileRecord))
        (fileHash nm saveDir : String) (net : Nat → AttemptNet),
        net 0 = AttemptNet.connectTimeout → net 1 = AttemptNet.connectTimeout →
        net 2 = AttemptNet.connectTimeout →
        downloadFromPeer sha sf fileHash (some nm) saveDir net =
          ⟨.raised ⟨"Connection to peer timed out", false⟩, 3, 2, none⟩)
    ∧ (∀ (sha : List Nat → String) (sf : List (String × FileRecord))
        (fileHash nm saveDir : String) (net : Nat → AttemptNet)
        (events : List StreamEvent),
        net 0 = AttemptNet.ok events → readLoop events 0 [] = .error () →
        downloadFromPeer sha sf fileHash (some nm) saveDir net =
          ⟨.raised ⟨"Timeout while receiving file data", false⟩, 1, 0, some []⟩)
    ∧ (∀ (d : List Nat) (rest : List StreamEvent) (tot : Nat) (acc : List Nat),
        d ≠ [] →
        readLoop (StreamEvent.chunk d :: StreamEvent.timeout :: rest) tot acc =
          readLoop (StreamEvent.chunk d :: rest) tot acc) := by
  refine ⟨?_, ?_, ?_⟩
  · intro sha sf fileHash nm saveDir net h0 h1 h2
    have hs0 : attemptStep sha fileHash (some nm) saveDir (net 0) =
        (.error (.sockTimeout, "connect timed out"), .untouched) := by
      rw [h0]; rfl
    have hs1 : attemptStep sha fileHash (some nm) saveDir (net 1) =
        (.error (.sockTimeout, "connect timed out"), .untouched) := by
      rw [h1]; rfl
    have hs2 : attemptStep sha fileHash (some nm) saveDir (net 2) =
        (.error (.sockTimeout, "connect timed out"), .untouched) := by
      rw [h2]; rfl
    show downloadGo sha fileHash (some nm) saveDir net (2 + 1) 0 0 none
      ⟨"", false⟩ = _
    rw [downloadGo_step_timeout 2 hs0, if_neg (by decide)]
    show downloadGo sha fileHash (some nm) saveDir net (1 + 1) 1 1 none
      ⟨"Connection to peer timed out", false⟩ = _
    rw [downloadGo_step_timeout 1 hs1, if_neg (by decide)]
    show downloadGo sha fileHash (some nm) saveDir net (0 + 1) 2 2 none
      ⟨"Connection to peer timed out", false⟩ = _
    rw [downloadGo_step_timeout 0 hs2, if_pos rfl]
    rfl
  · intro sha sf fileHash nm saveDir net events h0 hz
    have hs0 : attemptStep sha fileHash (some nm) saveDir (net 0) =
        (.error (.other, "Timeout while receiving file data"),
          .leftover (some [])) := by
      rw [h0]; exact attemptStep_zeroTimeout hz
    show downloadGo sha fileHash (some nm) saveDir net (2 + 1) 0 0 none
      ⟨"", false⟩ = _
    rw [downloadGo_step_other 2 hs0]
    rfl
  · intro d rest tot acc hd
    have hbe : d.isEmpty = false := by
      cases d with
      | nil => exact absurd rfl hd
      | cons a l => rfl
    have hlen : ¬(tot + d.length = 0) := by
      have : 0 < d.length := List.length_pos.2 hd
      omega
    rw [readLoop, hbe]
    rw [readLoop, hbe]
    rw [readLoop, if_neg hlen]

/-- Witness for C6 (amended): three connect timeouts at concrete inputs
give exactly 3 attempts and 2 sleeps. -/
theorem c6_witness :
    downloadFromPeer (fun _ => "H") [] "H" (some "f") "/d"
      (fun _ => AttemptNet.connectTimeout) =
      ⟨.raised ⟨"Connection to peer timed out", false⟩, 3, 2, none⟩ :=
  c6_retry_behaviour.1 (fun _ => "H") [] "H" "f" "/d"
    (fun _ => AttemptNet.connectTimeout) rfl rfl rfl

end P2P
